import Mathlib

/-!
Verification development for the eth-swap-tracker repository.

Shallow embedding of the two source files:
  * `src/webhooksUtil.ts` (second revision, the one with `getEthereumTokenUSD`
    and the 31-anchor stack): graph construction (`addEdge`), the price
    propagation traversal inside `fillUSDAmounts`, the per-event field
    assignment and oracle fallback, and the database write loop.
  * `src/index.ts`: the directional normalization of decoded swap amounts in
    `parseSwapEvents`, the `PARSING`/`ARRIVING` flags, and the websocket
    log handler.

Modelling conventions:
  * `decimal.js` `Decimal` values are modelled as `ℚ`.  The spec mandates
    arbitrary-precision decimal arithmetic; `ℚ` is the exact model of the
    ratios and products the claims are about.  (Division by zero, which in
    decimal.js yields `Infinity`, is excluded by nonzero-amount hypotheses
    wherever division occurs.)
  * JavaScript `Map` objects are modelled as insertion-ordered association
    lists with `set` overwriting an existing key in place.
  * JavaScript arrays used as stacks (`push`/`pop` at the end) are modelled
    as Lean lists with the head as the stack top; the literal anchor array is
    written in source order and reversed before use.
  * Falsy string checks (`se.token0.symbol && se.token1.symbol`) are modelled
    as comparison with the empty string.
  * `await`ed external collaborators (price oracle, database client) are
    passed in as functions.
-/

/-- A price map `Map<string, Decimal>` (the `symbol2USD` map): an
insertion-ordered association list from symbols to prices. -/
abbrev PMap := List (String × ℚ)

/-- `Map.get`: value of the first (unique) entry for the key. -/
def pget (m : PMap) (k : String) : Option ℚ :=
  (m.find? (fun p => p.1 = k)).map (fun p => p.2)

/-- `Map.has`. -/
def phas (m : PMap) (k : String) : Bool :=
  (m.find? (fun p => p.1 = k)).isSome

/-- `Map.set`: overwrite in place when the key exists, append otherwise. -/
def pset (m : PMap) (k : String) (v : ℚ) : PMap :=
  if phas m k then m.map (fun p => if p.1 = k then (k, v) else p)
  else m ++ [(k, v)]

/-- One outgoing edge `{ symbol, ratio }` of the per-batch price graph. -/
structure Edge where
  symbol : String
  ratio : ℚ
deriving DecidableEq, Repr

/-- The price graph `Map<string, {symbol, ratio}[]>`, again as an
insertion-ordered association list. -/
abbrev Graph := List (String × List Edge)

/-- `graph.get`. -/
def gget (g : Graph) (k : String) : Option (List Edge) :=
  (g.find? (fun p => p.1 = k)).map (fun p => p.2)

/-- `graph.has`. -/
def ghas (g : Graph) (k : String) : Bool :=
  (g.find? (fun p => p.1 = k)).isSome

/-- `addEdge(graph, A, B, ratio)` from webhooksUtil.ts: push the edge onto
`A`'s adjacency array, creating the entry if absent.  JS `Array.push`
appends at the end. -/
def addEdge (g : Graph) (A B : String) (ratio : ℚ) : Graph :=
  if ghas g A then
    g.map (fun p => if p.1 = A then (p.1, p.2 ++ [⟨B, ratio⟩]) else p)
  else g ++ [(A, [⟨B, ratio⟩])]

/-- One leg of a swap event record as mutated by the pipeline:
`{ id, symbol, amount, value_in_usd?, total_exchanged_usd? }`.  The USD
fields start out unset (`none`) on a freshly decoded event. -/
structure TokenLeg where
  id : String
  symbol : String
  amount : ℚ
  value_in_usd : Option ℚ := none
  total_exchanged_usd : Option ℚ := none
deriving DecidableEq, Repr

/-- A swap event record as handed to `fillUSDAmounts`. -/
structure SwapEvent where
  blockNumber : ℕ
  blockHash : String
  transactionHash : String
  fromAddress : String
  token0 : TokenLeg
  token1 : TokenLeg
deriving DecidableEq, Repr

/-- The graph-building loop at the top of `fillUSDAmounts`: for every swap
event whose two symbols are truthy, add the edge pair weighted by the two
amount ratios. -/
def buildGraph (swapEvents : List SwapEvent) : Graph :=
  swapEvents.foldl
    (fun g se =>
      if se.token0.symbol ≠ "" ∧ se.token1.symbol ≠ "" then
        addEdge
          (addEdge g se.token0.symbol se.token1.symbol
            (se.token0.amount / se.token1.amount))
          se.token1.symbol se.token0.symbol
          (se.token1.amount / se.token0.amount)
      else g)
    []

/-- The literal anchor stack of `fillUSDAmounts`, in source order ("WETH"
last, hence popped first). -/
def anchors : List String :=
  ["GHO", "GRAI", "SEUR", "aUSDC", "BUSD", "GUSD", "CRVUSD", "EUSD",
   "aUSDT", "USDP", "TUSD", "MIM", "EURA", "TAI", "XAI", "USDD", "BOB",
   "PUSd", "EUSD", "DAI", "VEUR", "DOLA", "FRAX", "anyCRU", "anyETH",
   "MXNt", "LUSD", "SUSD", "USDC", "USDT", "WETH"]

/-- Anchor seeding: `symbol2USD.set("WETH", ETH2USD)` followed by
`for (i = 0; i < stack.length - 1; ++i) symbol2USD.set(stack[i], 1.0)`. -/
def seed (ETH2USD : ℚ) : PMap :=
  (anchors.take (anchors.length - 1)).foldl
    (fun m s => pset m s 1) (pset [] "WETH" ETH2USD)

/-- The body of the traversal's `for (var right of graph.get(symbol))` loop:
walk the popped symbol's adjacency list in order with the price map
evolving, pricing and collecting (in edge order) each neighbor that is not
yet priced at its turn. -/
def processEdges (price : ℚ) : PMap → List Edge → PMap × List String
  | P, [] => (P, [])
  | P, e :: es =>
    if phas P e.symbol then processEdges price P es
    else
      let step := processEdges price (pset P e.symbol (price * e.ratio)) es
      (step.1, e.symbol :: step.2)

/-- All edge-target symbols of the graph (with duplicates). -/
def targets (g : Graph) : List String :=
  g.flatMap (fun p => p.2.map Edge.symbol)

/-- Number of distinct edge targets not yet priced; used to bound how many
pushes the traversal can still perform. -/
def unpricedCount (g : Graph) (P : PMap) : ℕ :=
  ((targets g).dedup.filter (fun s => ¬ phas P s)).length

/-- The `while (stack.length > 0)` traversal of `fillUSDAmounts`, with
explicit fuel (each iteration pops once).  `fuel = stack.length +
unpricedCount g P` is provably sufficient (`traverseFuel_stack_drained`);
`traverseStack` below instantiates it.  Stack top is the list head (the JS code
pushes/pops at the array's end). -/
def traverseFuel : ℕ → Graph → List String → PMap → PMap
  | 0, _, _, P => P
  | _ + 1, _, [], P => P
  | fuel + 1, g, sym :: rest, P =>
    match gget g sym with
    | none => traverseFuel fuel g rest P
    | some edges =>
      let price := (pget P sym).getD 0
      let step := processEdges price P edges
      traverseFuel fuel g (step.2.reverse ++ rest) step.1

/-- Sufficient fuel for `traverseFuel` to drain the stack. -/
def enoughFuel (g : Graph) (stack : List String) (P : PMap) : ℕ :=
  stack.length + unpricedCount g P

/-- The traversal as run by the source (no fuel there; the invariant
`fuel ≥ stack.length + unpricedCount` justifies this instantiation). -/
def traverseStack (g : Graph) (stack : List String) (P : PMap) : PMap :=
  traverseFuel (enoughFuel g stack P) g stack P

/-- The field-assignment block of `fillUSDAmounts` (lines 384-390 and again
411-418): if `token0`'s symbol is priced, set its USD fields, and — only
then — do the same for `token1` if it is priced. -/
def setFields (P : PMap) (se : SwapEvent) : SwapEvent :=
  if phas P se.token0.symbol then
    let v0 := (pget P se.token0.symbol).getD 0
    let se1 := { se with token0 :=
      { se.token0 with value_in_usd := some v0,
                       total_exchanged_usd := some (v0 * se.token0.amount) } }
    if phas P se.token1.symbol then
      let v1 := (pget P se.token1.symbol).getD 0
      { se1 with token1 :=
        { se1.token1 with value_in_usd := some v1,
                          total_exchanged_usd := some (v1 * se1.token1.amount) } }
    else se1
  else se

/-- `getEthereumTokenUSD` from webhooksUtil.ts: query the Moralis price API,
returning `Decimal(0)` if the call throws. -/
def getEthereumTokenUSD (moralis : String → Except Unit ℚ) (addr : String) : ℚ :=
  match moralis addr with
  | .ok p => p
  | .error _ => 0

/-- The JS comparison `usdPrice == new Decimal(0)` at line 394: both
operands are objects, so JS `==` compares references and the result is
always `false` — the zero-price guard is dead code. -/
def jsLooseEqFreshDecimal (_usdPrice _zero : ℚ) : Bool := false

/-- One iteration of the per-event loop of `fillUSDAmounts` (lines 383-419):
branch on whether `token0` is priced; otherwise call the oracle, seed the
symbol (the zero guard being dead), and re-run the traversal from it; in
both cases the re-check at lines 411-418 assigns the USD fields again. -/
def processEvent (oracle : String → ℚ) (g : Graph) (P : PMap)
    (se : SwapEvent) : SwapEvent × PMap :=
  let branch :=
    if phas P se.token0.symbol then (setFields P se, P)
    else
      let usdPrice := oracle se.token0.id
      if jsLooseEqFreshDecimal usdPrice 0 then (se, P)
      else
        let P1 := pset P se.token0.symbol usdPrice
        (se, traverseStack g [se.token0.symbol] P1)
  (setFields branch.2 branch.1, branch.2)

/-- The per-event loop, threading the price map left to right and collecting
the updated event records. -/
def fillLoop (oracle : String → ℚ) (g : Graph) :
    PMap → List SwapEvent → List SwapEvent × PMap
  | P, [] => ([], P)
  | P, se :: rest =>
    let step := processEvent oracle g P se
    let tail := fillLoop oracle g step.2 rest
    (step.1 :: tail.1, tail.2)

/-- The `symbol2USD` map as it stands after anchor seeding and the initial
anchor-stack traversal, before the per-event loop. -/
def initialPrices (swapEvents : List SwapEvent) (ETH2USD : ℚ) : PMap :=
  traverseStack (buildGraph swapEvents) anchors.reverse (seed ETH2USD)

/-- The pricing part of `fillUSDAmounts(swapEvents, ETH2USD, client, web3)`:
early return on an empty batch, then graph construction, anchor seeding,
initial traversal, and the per-event loop.  Returns the updated event
records and the final `symbol2USD` map. -/
def fillUSDAmounts (swapEvents : List SwapEvent) (ETH2USD : ℚ)
    (oracle : String → ℚ) : List SwapEvent × PMap :=
  if swapEvents = [] then ([], [])
  else
    fillLoop oracle (buildGraph swapEvents) (initialPrices swapEvents ETH2USD)
      swapEvents

/-- Decimal-to-string conversion used when building a database row.  Exact
for integral values (the only values the claims evaluate it on: `Decimal(0)
.toString()` is `"0"`); non-integral rationals are rendered as a fraction. -/
def decToString (q : ℚ) : String :=
  if q.den = 1 then
    (if q.num < 0 then "-" ++ q.num.natAbs.repr else q.num.natAbs.repr)
  else q.num.repr ++ "/" ++ (q.den.repr)

/-- The `values` array of the database insert (webhooksUtil.ts lines
455-472): every possibly-absent numeric field is written as
`(x ?? 0).toString()`. -/
def rowValues (blockNumber : ℕ) (blockHash transactionHash fromAddress : String)
    (token0_id token0_symbol : String)
    (token0_amount token0_value_in_usd token0_total_exchanged_usd : Option ℚ)
    (token1_id token1_symbol : String)
    (token1_amount token1_value_in_usd token1_total_exchanged_usd : Option ℚ)
    (ETH2USD : Option ℚ) (block_timestamp : String) : List String :=
  [blockNumber.repr,
   blockHash,
   transactionHash,
   fromAddress,
   token0_id,
   token0_symbol,
   decToString (token0_amount.getD 0),
   decToString (token0_value_in_usd.getD 0),
   decToString (token0_total_exchanged_usd.getD 0),
   token1_id,
   token1_symbol,
   decToString (token1_amount.getD 0),
   decToString (token1_value_in_usd.getD 0),
   decToString (token1_total_exchanged_usd.getD 0),
   decToString (ETH2USD.getD 0),
   block_timestamp]

/-- The row built for one enriched swap event. -/
def toRow (ETH2USD : ℚ) (block_timestamp : String) (e : SwapEvent) :
    List String :=
  rowValues e.blockNumber e.blockHash e.transactionHash e.fromAddress
    e.token0.id e.token0.symbol
    (some e.token0.amount) e.token0.value_in_usd e.token0.total_exchanged_usd
    e.token1.id e.token1.symbol
    (some e.token1.amount) e.token1.value_in_usd e.token1.total_exchanged_usd
    (some ETH2USD) block_timestamp

/-- One `try { await client.query(...) } catch (err) { console.error(...) }`
iteration: the write's failure is caught, yielding a per-row outcome. -/
def attemptRow (client : List String → Except String Unit)
    (row : List String) : Bool :=
  match client row with
  | .ok _ => true
  | .error _ => false

/-- The database write loop at the end of `fillUSDAmounts`: one row per
event, each write attempted independently, failures caught in place. -/
def persistBatch (client : List String → Except String Unit) (ETH2USD : ℚ)
    (block_timestamp : String) : List SwapEvent → List Bool
  | [] => []
  | e :: rest =>
    attemptRow client (toRow ETH2USD block_timestamp e) ::
      persistBatch client ETH2USD block_timestamp rest

/- ------------------------------------------------------------------ -/
/- index.ts: directional normalization and the aggregator flags.       -/
/- ------------------------------------------------------------------ -/

/-- Token metadata `{ symbol, decimal }` as cached by index.ts. -/
structure Token where
  id : String
  symbol : String
  decimal : ℕ
deriving DecidableEq, Repr

/-- A pool's pair of tokens. -/
structure PairToken where
  token0 : Token
  token1 : Token
deriving DecidableEq, Repr

/-- `ethers.formatUnits(amount, decimals)` followed by `new Decimal(...)`:
scale the raw integer amount by the token's decimal count. -/
def formatUnits (amount : ℤ) (decimal : ℕ) : ℚ :=
  (amount : ℚ) / 10 ^ decimal

/-- `Decimal.isPositive()`: the sign is positive (decimal.js counts +0 as
positive; the claims only use this away from zero). -/
def isPositiveDec (q : ℚ) : Bool := 0 ≤ q

/-- One leg as written onto the log record by index.ts (`{symbol, amount}`). -/
structure DecodedLeg where
  symbol : String
  amount : ℚ
deriving DecidableEq, Repr

/-- Directional normalization (index.ts lines 131-152): whichever side's
scaled amount is positive becomes `token0` (leg0) as is; the other side
becomes `token1` (leg1) with its own scaled amount's absolute value. -/
def normalizeSwap (pair : PairToken) (amount0 amount1 : ℤ) :
    DecodedLeg × DecodedLeg :=
  let amount0Decimal := formatUnits amount0 pair.token0.decimal
  let amount1Decimal := formatUnits amount1 pair.token1.decimal
  if isPositiveDec amount0Decimal then
    (⟨pair.token0.symbol, amount0Decimal⟩, ⟨pair.token1.symbol, |amount1Decimal|⟩)
  else
    (⟨pair.token1.symbol, amount1Decimal⟩, ⟨pair.token0.symbol, |amount0Decimal|⟩)

/-- The two aggregator flags of index.ts. -/
structure ParseState where
  parsing : Bool
  arriving : Bool
deriving DecidableEq, Repr

/-- `parseSwapEvents` (index.ts lines 59-159) abstracted over its awaited
steps: sets `PARSING = true` and `ARRIVING = false`, fetches the ETH price,
decodes the logs (metadata lookups included), prices and persists the batch
(`fillUSDAmounts`), and only then executes `PARSING = false`.  There is no
`try`/`finally`, so a rejection at any step propagates with the flags as
they stand. -/
def parseSwapEventsRun (fetchEthUSD : Except Unit ℚ)
    (decodeLogs : ℚ → Except Unit (List SwapEvent))
    (fillAndPersist : List SwapEvent → Except Unit Unit) : ParseState :=
  let s : ParseState := ⟨true, false⟩
  match fetchEthUSD with
  | .error _ => s
  | .ok eth =>
    match decodeLogs eth with
    | .error _ => s
    | .ok evs =>
      match fillAndPersist evs with
      | .error _ => s
      | .ok _ => { s with parsing := false }

/-- The websocket log handler (index.ts lines 170-186): drop the log when
`PARSING`, otherwise clear the buffer on a fresh window and append. -/
def onLog (parsing arriving : Bool) (logs : List String) (lg : String) :
    List String :=
  if parsing then logs
  else (if arriving then logs else []) ++ [lg]

/- ------------------------------------------------------------------ -/
/- Specification-side notions used to state graph-level properties.    -/
/- ------------------------------------------------------------------ -/

/-- Whether the graph has a directed edge from `u` to `v`. -/
def edgeB (g : Graph) (u v : String) : Bool :=
  match gget g u with
  | some es => es.any (fun e => e.symbol = v)
  | none => false

/-- Reachability in the price graph from a base predicate: the base
symbols, closed under following directed edges. -/
inductive ReachP (g : Graph) (B : String → Prop) : String → Prop where
  | base (s : String) : B s → ReachP g B s
  | step (u v : String) : ReachP g B u → edgeB g u v = true → ReachP g B v

/-- The base set used to characterize the final price map's domain: the
anchor symbols together with every event's first-leg symbol. -/
def fillBase (swapEvents : List SwapEvent) : List String :=
  anchors ++ swapEvents.map (fun se => se.token0.symbol)

/- ------------------------------------------------------------------ -/
/- Concrete inputs used to instantiate the claims.                     -/
/- ------------------------------------------------------------------ -/

/-- A swap event as decoded by index.ts (USD fields still unset). -/
def mkSwapEvent (i0 s0 : String) (a0 : ℚ) (i1 s1 : String) (a1 : ℚ) :
    SwapEvent :=
  { blockNumber := 1, blockHash := "bh", transactionHash := "tx",
    fromAddress := "from",
    token0 := { id := i0, symbol := s0, amount := a0 },
    token1 := { id := i1, symbol := s1, amount := a1 } }

/-- An oracle that answers 0 for every token (the value
`getEthereumTokenUSD` produces when the Moralis call fails). -/
def zeroOracle : String → ℚ := fun _ => 0

def swapUSDC2X : SwapEvent := mkSwapEvent "idUSDC" "USDC" 2 "idX" "X" 1

def swapUSDC3X : SwapEvent := mkSwapEvent "idUSDC" "USDC" 3 "idX" "X" 1

def swapUSDC2Z : SwapEvent := mkSwapEvent "idUSDC" "USDC" 2 "idZ" "Z" 1

def swapUSDT3Z : SwapEvent := mkSwapEvent "idUSDT" "USDT" 3 "idZ" "Z" 1

def swapZW : SwapEvent := mkSwapEvent "idZ" "Z" 4 "idW" "W" 2

def swapAB : SwapEvent := mkSwapEvent "idA" "A" 10 "idB" "B" 2

def swapBC : SwapEvent := mkSwapEvent "idB" "B" 6 "idC" "C" 2

/-- First leg a priced anchor, second leg a token with a falsy symbol. -/
def swapUSDCBlank : SwapEvent := mkSwapEvent "idU" "USDC" 1 "idE" "" 1

/-- First leg with a falsy symbol, second leg a priced anchor. -/
def swapBlankUSDC : SwapEvent := mkSwapEvent "idE2" "" 1 "idU2" "USDC" 1

/-- The oracle wrapper applied to a Moralis transport that always fails:
by `getEthereumTokenUSD`'s catch, it answers 0 for every token. -/
def failingOracle : String → ℚ := getEthereumTokenUSD (fun _ => .error ())

def persistEvent1 : SwapEvent := mkSwapEvent "idUSDC" "USDC" 2 "idX" "X" 1

def persistEvent2 : SwapEvent :=
  { mkSwapEvent "idUSDC" "USDC" 3 "idX" "X" 1 with transactionHash := "tx2" }

def persistEvent3 : SwapEvent :=
  { mkSwapEvent "idUSDC" "USDC" 4 "idX" "X" 1 with transactionHash := "tx3" }

/-- A database client that rejects exactly the row built from
`persistEvent2` and accepts every other row. -/
def failingClient : List String → Except String Unit := fun row =>
  if row = toRow 1600 "ts0" persistEvent2 then .error "write failed"
  else .ok ()

/-- The single enriched event produced by running `fillUSDAmounts` on the
one-swap batch `[swapUSDC2X]`. -/
def filledUSDC2X : SwapEvent :=
  ((fillUSDAmounts [swapUSDC2X] 1600 zeroOracle).1).headD swapUSDC2X

/- ------------------------------------------------------------------ -/
/- Association-map lemmas.                                             -/
/- ------------------------------------------------------------------ -/

theorem phas_eq_isSome (m : PMap) (k : String) :
    phas m k = (pget m k).isSome := by
  simp [phas, pget]

theorem phas_iff_exists (m : PMap) (k : String) :
    phas m k = true ↔ ∃ p ∈ m, p.1 = k := by
  simp [phas, List.find?_isSome]

theorem pget_nil (k : String) : pget [] k = none := rfl

theorem pget_cons (p : String × ℚ) (t : PMap) (k : String) :
    pget (p :: t) k = if p.1 = k then some p.2 else pget t k := by
  by_cases h : p.1 = k
  · simp [pget, List.find?_cons_of_pos, h]
  · simp [pget, List.find?_cons_of_neg, h]

theorem phas_nil (k : String) : phas [] k = false := rfl

theorem phas_cons (p : String × ℚ) (t : PMap) (k : String) :
    phas (p :: t) k = (p.1 = k || phas t k) := by
  rw [phas_eq_isSome, phas_eq_isSome, pget_cons]
  by_cases h : p.1 = k <;> simp [h]

theorem pget_map_set (m : PMap) (k : String) (v : ℚ) (k' : String) :
    pget (m.map (fun p => if p.1 = k then (k, v) else p)) k' =
      if k' = k then (if phas m k then some v else none) else pget m k' := by
  induction m with
  | nil => by_cases h : k' = k <;> simp [pget, phas, h]
  | cons p t ih =>
    rw [List.map_cons, pget_cons, pget_cons, phas_cons]
    by_cases hp : p.1 = k
    · by_cases h : k' = k
      · subst h
        simp [hp]
      · simp only [hp, if_true]
        have : ¬ ((k : String) = k') := fun hh => h hh.symm
        simp [this, h, ih]
    · by_cases hpk : p.1 = k'
      · have h : k' ≠ k := fun hh => hp (hpk.trans hh)
        simp [hp, hpk, h]
      · simp [hp, hpk, ih]

theorem pget_append_one (m : PMap) (k : String) (v : ℚ) (k' : String) :
    pget (m ++ [(k, v)]) k' =
      if k' = k then (pget m k').or (some v) else pget m k' := by
  induction m with
  | nil =>
    by_cases h : k' = k
    · simp [pget, h]
    · have h2 : ¬ ((k : String) = k') := fun hh => h hh.symm
      simp [pget, h, h2]
  | cons p t ih =>
    rw [List.cons_append, pget_cons, pget_cons]
    by_cases hpk : p.1 = k'
    · by_cases h : k' = k <;> simp [hpk, h]
    · simp [hpk, ih]

theorem pget_pset (m : PMap) (k : String) (v : ℚ) (k' : String) :
    pget (pset m k v) k' = if k' = k then some v else pget m k' := by
  unfold pset
  by_cases hk : phas m k
  · rw [if_pos hk, pget_map_set]
    by_cases h : k' = k <;> simp [h, hk]
  · rw [if_neg hk, pget_append_one]
    by_cases h : k' = k
    · subst h
      have hnone : pget m k' = none := by
        have hs := phas_eq_isSome m k'
        rw [hs] at hk
        cases hget : pget m k' with
        | none => rfl
        | some q => rw [hget] at hk; simp at hk
      simp [hnone]
    · simp [h]

theorem phas_pset (m : PMap) (k : String) (v : ℚ) (k' : String) :
    phas (pset m k v) k' = (phas m k' || k' = k) := by
  rw [phas_eq_isSome, pget_pset, phas_eq_isSome]
  by_cases hkk : k' = k <;> simp [hkk]

/- ------------------------------------------------------------------ -/
/- Lemmas about one adjacency-list pass.                               -/
/- ------------------------------------------------------------------ -/

theorem processEdges_pget_mono (price : ℚ) (P : PMap) (es : List Edge)
    (s : String) (v : ℚ) (h : pget P s = some v) :
    pget (processEdges price P es).1 s = some v := by
  induction es generalizing P with
  | nil => simpa [processEdges] using h
  | cons e t ih =>
    rw [processEdges]
    by_cases he : phas P e.symbol = true
    · rw [if_pos he]
      exact ih P h
    · rw [if_neg he]
      apply ih
      have hs : phas P s = true := by rw [phas_eq_isSome, h]; rfl
      have hne : ¬ s = e.symbol := fun hh => he (hh ▸ hs)
      rw [pget_pset]
      simp [hne, h]

theorem processEdges_phas_iff (price : ℚ) (P : PMap) (es : List Edge)
    (t : String) :
    phas (processEdges price P es).1 t = true ↔
      phas P t = true ∨ t ∈ (processEdges price P es).2 := by
  induction es generalizing P with
  | nil => simp [processEdges]
  | cons e l ih =>
    rw [processEdges]
    by_cases he : phas P e.symbol = true
    · rw [if_pos he]
      exact ih P
    · rw [if_neg he]
      show phas (processEdges price (pset P e.symbol (price * e.ratio)) l).1 t
          = true ↔ _ ∨ t ∈ e.symbol :: (processEdges price
            (pset P e.symbol (price * e.ratio)) l).2
      rw [ih, phas_pset]
      constructor
      · rintro (h | h)
        · rcases Bool.or_eq_true_iff.1 h with h | h
          · exact Or.inl h
          · simp only [decide_eq_true_eq] at h
            exact Or.inr (by simp [h])
        · exact Or.inr (by simp [h])
      · rintro (h | h)
        · exact Or.inl (by simp [h])
        · rcases List.mem_cons.1 h with h | h
          · exact Or.inl (by simp [h])
          · exact Or.inr h

theorem processEdges_pushed_subset (price : ℚ) (P : PMap) (es : List Edge)
    (t : String) (h : t ∈ (processEdges price P es).2) :
    t ∈ es.map Edge.symbol := by
  induction es generalizing P with
  | nil => simp [processEdges] at h
  | cons e l ih =>
    rw [processEdges] at h
    by_cases he : phas P e.symbol = true
    · rw [if_pos he] at h
      simpa using Or.inr (ih _ h)
    · rw [if_neg he] at h
      rcases List.mem_cons.1 h with h | h
      · simp [h]
      · simpa using Or.inr (ih _ h)

theorem processEdges_pushed_unpriced (price : ℚ) (P : PMap) (es : List Edge)
    (t : String) (h : t ∈ (processEdges price P es).2) :
    phas P t = false := by
  induction es generalizing P with
  | nil => simp [processEdges] at h
  | cons e l ih =>
    rw [processEdges] at h
    by_cases he : phas P e.symbol = true
    · rw [if_pos he] at h
      exact ih _ h
    · rw [if_neg he] at h
      rcases List.mem_cons.1 h with h | h
      · rw [h]
        simpa using he
      · have hp := ih _ h
        rw [phas_pset] at hp
        simpa using (Bool.or_eq_false_iff.1 hp).1

theorem processEdges_pushed_nodup (price : ℚ) (P : PMap) (es : List Edge) :
    (processEdges price P es).2.Nodup := by
  induction es generalizing P with
  | nil => simp [processEdges]
  | cons e l ih =>
    rw [processEdges]
    by_cases he : phas P e.symbol = true
    · rw [if_pos he]
      exact ih P
    · rw [if_neg he]
      refine List.nodup_cons.2 ⟨fun hmem => ?_, ih _⟩
      have hp := processEdges_pushed_unpriced price _ l e.symbol hmem
      rw [phas_pset] at hp
      simp at hp

theorem processEdges_covers (price : ℚ) (P : PMap) (es : List Edge)
    (e : Edge) (he : e ∈ es) :
    phas (processEdges price P es).1 e.symbol = true := by
  induction es generalizing P with
  | nil => simp at he
  | cons e0 l ih =>
    rw [processEdges]
    by_cases h0 : phas P e0.symbol = true
    · rw [if_pos h0]
      rcases List.mem_cons.1 he with h | h
      · subst h
        exact (processEdges_phas_iff _ _ _ _).2 (Or.inl h0)
      · exact ih P h
    · rw [if_neg h0]
      show phas (processEdges price (pset P e0.symbol (price * e0.ratio)) l).1
          e.symbol = true
      rcases List.mem_cons.1 he with h | h
      · subst h
        refine (processEdges_phas_iff _ _ _ _).2 (Or.inl ?_)
        rw [phas_pset]
        simp
      · exact ih _ h

theorem gget_mem (g : Graph) (u : String) (es : List Edge)
    (h : gget g u = some es) : ∃ p ∈ g, p.1 = u ∧ p.2 = es := by
  unfold gget at h
  cases hf : g.find? (fun p => p.1 = u) with
  | none => rw [hf] at h; simp at h
  | some q =>
    rw [hf] at h
    refine ⟨q, List.mem_of_find?_eq_some hf, ?_, by simpa using h⟩
    have := List.find?_some hf
    simpa using this

theorem mem_targets_of_gget (g : Graph) (u : String) (es : List Edge)
    (h : gget g u = some es) (t : String) (ht : t ∈ es.map Edge.symbol) :
    t ∈ targets g := by
  rcases gget_mem g u es h with ⟨p, hp, _, hpes⟩
  unfold targets
  refine List.mem_flatMap.2 ⟨p, hp, ?_⟩
  rw [hpes]
  exact ht

theorem edgeB_of_gget_none (g : Graph) (u v : String)
    (h : gget g u = none) : edgeB g u v = false := by
  unfold edgeB
  rw [h]

theorem edgeB_gget_some (g : Graph) (u v : String) (es : List Edge)
    (h : gget g u = some es) :
    edgeB g u v = true ↔ v ∈ es.map Edge.symbol := by
  unfold edgeB
  rw [h]
  simp only [List.any_eq_true, List.mem_map, decide_eq_true_eq]

theorem unpricedCount_processEdges (g : Graph) (price : ℚ) (P : PMap)
    (es : List Edge) (hsub : ∀ t ∈ es.map Edge.symbol, t ∈ targets g) :
    unpricedCount g (processEdges price P es).1 +
      (processEdges price P es).2.length ≤ unpricedCount g P := by
  classical
  set P' := (processEdges price P es).1 with hP'
  set pushed := (processEdges price P es).2 with hpushed
  unfold unpricedCount
  have hsubl : (pushed ++ ((targets g).dedup.filter (fun s => ¬ phas P' s))) ⊆
      ((targets g).dedup.filter (fun s => ¬ phas P s)) := by
    intro t ht
    rcases List.mem_append.1 ht with ht | ht
    · refine List.mem_filter.2 ⟨?_, ?_⟩
      · exact List.mem_dedup.2 (hsub t (processEdges_pushed_subset _ _ _ _ ht))
      · have := processEdges_pushed_unpriced price P es t ht
        simp [this]
    · rcases List.mem_filter.1 ht with ⟨htl, htp⟩
      refine List.mem_filter.2 ⟨htl, ?_⟩
      simp only [decide_eq_true_eq] at htp ⊢
      intro hc
      exact htp ((processEdges_phas_iff _ _ _ _).2 (Or.inl hc))
  have hnd : (pushed ++ ((targets g).dedup.filter (fun s => ¬ phas P' s))).Nodup := by
    rw [List.nodup_append]
    refine ⟨processEdges_pushed_nodup _ _ _,
      (List.nodup_dedup _).filter _, ?_⟩
    intro t htp htf
    rcases List.mem_filter.1 htf with ⟨_, htp'⟩
    simp only [decide_eq_true_eq] at htp'
    exact htp' ((processEdges_phas_iff _ _ _ _).2 (Or.inr htp))
  have := (List.subperm_of_subset hnd hsubl).length_le
  rw [List.length_append] at this
  omega

/- ------------------------------------------------------------------ -/
/- Traversal lemmas: monotonicity, soundness, closedness.              -/
/- ------------------------------------------------------------------ -/

theorem traverseFuel_cons_none (f : ℕ) (g : Graph) (sym : String)
    (rest : List String) (P : PMap) (hg : gget g sym = none) :
    traverseFuel (f + 1) g (sym :: rest) P = traverseFuel f g rest P := by
  rw [traverseFuel, hg]

theorem traverseFuel_cons_some (f : ℕ) (g : Graph) (sym : String)
    (rest : List String) (P : PMap) (es : List Edge)
    (hg : gget g sym = some es) :
    traverseFuel (f + 1) g (sym :: rest) P =
      traverseFuel f g
        ((processEdges ((pget P sym).getD 0) P es).2.reverse ++ rest)
        (processEdges ((pget P sym).getD 0) P es).1 := by
  rw [traverseFuel, hg]

theorem traverseFuel_pget_mono (f : ℕ) (g : Graph) (st : List String)
    (P : PMap) (s : String) (v : ℚ) (h : pget P s = some v) :
    pget (traverseFuel f g st P) s = some v := by
  induction f generalizing st P with
  | zero => simpa [traverseFuel] using h
  | succ f ih =>
    cases st with
    | nil => simpa [traverseFuel] using h
    | cons sym rest =>
      rw [traverseFuel]
      cases hg : gget g sym with
      | none => exact ih rest P h
      | some es =>
        simp only
        exact ih _ _ (processEdges_pget_mono _ _ _ _ _ h)

theorem traverseFuel_phas_mono (f : ℕ) (g : Graph) (st : List String)
    (P : PMap) (s : String) (h : phas P s = true) :
    phas (traverseFuel f g st P) s = true := by
  rw [phas_eq_isSome] at h ⊢
  cases hp : pget P s with
  | none => rw [hp] at h; simp at h
  | some v => rw [traverseFuel_pget_mono f g st P s v hp]; rfl

theorem traverseFuel_sound (f : ℕ) (g : Graph) (B : String → Prop) :
    ∀ (st : List String) (P : PMap),
    (∀ s ∈ st, phas P s = true) →
    (∀ s, phas P s = true → ReachP g B s) →
    ∀ s, phas (traverseFuel f g st P) s = true → ReachP g B s := by
  induction f with
  | zero =>
    intro st P _ hbase s hs
    exact hbase s (by simpa [traverseFuel] using hs)
  | succ f ih =>
    intro st P hstack hbase s hs
    cases st with
    | nil => exact hbase s (by simpa [traverseFuel] using hs)
    | cons sym rest =>
      rw [traverseFuel] at hs
      cases hg : gget g sym with
      | none =>
        rw [hg] at hs
        exact ih rest P (fun t ht => hstack t (List.mem_cons_of_mem _ ht))
          hbase s hs
      | some es =>
        rw [hg] at hs
        simp only at hs
        refine ih _ _ ?_ ?_ s hs
        · intro t ht
          rcases List.mem_append.1 ht with ht | ht
          · exact (processEdges_phas_iff _ _ _ _).2
              (Or.inr (List.mem_reverse.1 ht))
          · exact (processEdges_phas_iff _ _ _ _).2
              (Or.inl (hstack t (List.mem_cons_of_mem _ ht)))
        · intro t ht
          rcases (processEdges_phas_iff _ _ _ _).1 ht with ht | ht
          · exact hbase t ht
          · have hsym : ReachP g B sym :=
              hbase sym (hstack sym (List.mem_cons_self _ _))
            have hedge : edgeB g sym t = true :=
              (edgeB_gget_some g sym t es hg).2
                (processEdges_pushed_subset _ _ _ _ ht)
            exact ReachP.step sym t hsym hedge

theorem traverseFuel_closed (f : ℕ) (g : Graph) :
    ∀ (st : List String) (P : PMap),
    st.length + unpricedCount g P ≤ f →
    (∀ s ∈ st, phas P s = true) →
    (∀ u, phas P u = true → u ∉ st → ∀ v, edgeB g u v = true →
      phas P v = true) →
    ∀ u v, phas (traverseFuel f g st P) u = true → edgeB g u v = true →
      phas (traverseFuel f g st P) v = true := by
  induction f with
  | zero =>
    intro st P hfuel _ hinv u v hu hedge
    have hst : st = [] := by
      cases st with
      | nil => rfl
      | cons a l => simp at hfuel
    subst hst
    simp only [traverseFuel] at hu ⊢
    exact hinv u hu (by simp) v hedge
  | succ f ih =>
    intro st P hfuel hstack hinv u v hu hedge
    cases st with
    | nil =>
      simp only [traverseFuel] at hu ⊢
      exact hinv u hu (by simp) v hedge
    | cons sym rest =>
      cases hg : gget g sym with
      | none =>
        rw [traverseFuel_cons_none f g sym rest P hg] at hu ⊢
        refine ih rest P ?_ (fun t ht => hstack t (List.mem_cons_of_mem _ ht))
          ?_ u v hu hedge
        · have : (sym :: rest).length = rest.length + 1 := rfl
          rw [this] at hfuel
          omega
        · intro w hw hwn x hx
          by_cases hws : w = sym
          · subst hws
            rw [edgeB_of_gget_none g w x hg] at hx
            simp at hx
          · exact hinv w hw (by simp [hws, hwn]) x hx
      | some es =>
        rw [traverseFuel_cons_some f g sym rest P es hg] at hu ⊢
        have hsub : ∀ t ∈ es.map Edge.symbol, t ∈ targets g :=
          fun t ht => mem_targets_of_gget g sym es hg t ht
        refine ih _ _ ?_ ?_ ?_ u v hu hedge
        · have hacct := unpricedCount_processEdges g
            ((pget P sym).getD 0) P es hsub
          have hlen : (((processEdges ((pget P sym).getD 0) P es).2.reverse
              ++ rest)).length =
            (processEdges ((pget P sym).getD 0) P es).2.length +
              rest.length := by
            rw [List.length_append, List.length_reverse]
          rw [hlen]
          have : (sym :: rest).length = rest.length + 1 := rfl
          rw [this] at hfuel
          omega
        · intro t ht
          rcases List.mem_append.1 ht with ht | ht
          · exact (processEdges_phas_iff _ _ _ _).2
              (Or.inr (List.mem_reverse.1 ht))
          · exact (processEdges_phas_iff _ _ _ _).2
              (Or.inl (hstack t (List.mem_cons_of_mem _ ht)))
        · intro w hw hwn x hx
          rcases (processEdges_phas_iff _ _ _ _).1 hw with hw | hw
          · by_cases hws : w = sym
            · subst hws
              rcases List.mem_map.1
                ((edgeB_gget_some g w x es hg).1 hx) with ⟨e, he, hex⟩
              have := processEdges_covers ((pget P w).getD 0) P es e he
              rw [hex] at this
              exact this
            · have hwnotin : w ∉ sym :: rest := by
                intro hc
                rcases List.mem_cons.1 hc with hc | hc
                · exact hws hc
                · exact hwn (List.mem_append.2 (Or.inr hc))
              exact (processEdges_phas_iff _ _ _ _).2
                (Or.inl (hinv w hw hwnotin x hx))
          · exfalso
            exact hwn (List.mem_append.2 (Or.inl (List.mem_reverse.2 hw)))

theorem traverseFuel_complete (f : ℕ) (g : Graph) (B : String → Prop)
    (st : List String) (P : PMap)
    (hfuel : st.length + unpricedCount g P ≤ f)
    (hstack : ∀ s ∈ st, phas P s = true)
    (hinv : ∀ u, phas P u = true → u ∉ st → ∀ v, edgeB g u v = true →
      phas P v = true)
    (hbase : ∀ s, B s → phas P s = true) :
    ∀ s, ReachP g B s → phas (traverseFuel f g st P) s = true := by
  intro s hr
  induction hr with
  | base t ht => exact traverseFuel_phas_mono _ _ _ _ _ (hbase t ht)
  | step u w hu he ihw =>
    exact traverseFuel_closed f g st P hfuel hstack hinv u w ihw he

/- ------------------------------------------------------------------ -/
/- Reachability utilities and the anchor seeding.                      -/
/- ------------------------------------------------------------------ -/

theorem reachP_mono (g : Graph) (B1 B2 : String → Prop)
    (h : ∀ x, B1 x → B2 x) (s : String) (hr : ReachP g B1 s) :
    ReachP g B2 s := by
  induction hr with
  | base t ht => exact ReachP.base t (h t ht)
  | step u v _ he ih => exact ReachP.step u v ih he

theorem reachP_bind (g : Graph) (B1 B2 : String → Prop)
    (h : ∀ x, B2 x → ReachP g B1 x) (s : String) (hr : ReachP g B2 s) :
    ReachP g B1 s := by
  induction hr with
  | base t ht => exact h t ht
  | step u v _ he ih => exact ReachP.step u v ih he

theorem reachP_congr (g1 g2 : Graph) (B1 B2 : String → Prop)
    (hedge : ∀ u v, edgeB g1 u v = edgeB g2 u v)
    (hbase : ∀ x, B1 x ↔ B2 x) (s : String) :
    ReachP g1 B1 s ↔ ReachP g2 B2 s := by
  constructor
  · intro hr
    induction hr with
    | base t ht => exact ReachP.base t ((hbase t).1 ht)
    | step u v _ he ih => exact ReachP.step u v ih (hedge u v ▸ he)
  · intro hr
    induction hr with
    | base t ht => exact ReachP.base t ((hbase t).2 ht)
    | step u v _ he ih => exact ReachP.step u v ih ((hedge u v).symm ▸ he)

theorem phas_foldl_pset_iff (l : List String) (m : PMap) (t : String) :
    phas (l.foldl (fun m s => pset m s 1) m) t = true ↔
      phas m t = true ∨ t ∈ l := by
  induction l generalizing m with
  | nil => simp
  | cons a l ih =>
    rw [List.foldl_cons, ih, phas_pset]
    constructor
    · rintro (h | h)
      · rcases Bool.or_eq_true_iff.1 h with h | h
        · exact Or.inl h
        · simp only [decide_eq_true_eq] at h
          exact Or.inr (by simp [h])
      · exact Or.inr (by simp [h])
    · rintro (h | h)
      · exact Or.inl (by simp [h])
      · rcases List.mem_cons.1 h with h | h
        · exact Or.inl (by simp [h])
        · exact Or.inr h

theorem anchors_split :
    anchors = anchors.take (anchors.length - 1) ++ ["WETH"] := by rfl

theorem seed_phas (eth : ℚ) (s : String) :
    phas (seed eth) s = true ↔ s ∈ anchors := by
  unfold seed
  rw [phas_foldl_pset_iff, phas_pset]
  conv_rhs => rw [anchors_split]
  rw [List.mem_append]
  constructor
  · rintro (h | h)
    · rcases Bool.or_eq_true_iff.1 h with h | h
      · rw [phas_nil] at h; simp at h
      · simp only [decide_eq_true_eq] at h
        exact Or.inr (by simp [h])
    · exact Or.inl h
  · rintro (h | h)
    · exact Or.inr h
    · simp only [List.mem_singleton] at h
      exact Or.inl (by simp [h])

theorem traverse_phas_of_seed (g : Graph) (eth : ℚ) (s : String) :
    phas (traverseStack g anchors.reverse (seed eth)) s = true ↔
      ReachP g (fun x => x ∈ anchors) s := by
  constructor
  · intro h
    refine traverseFuel_sound _ g (fun x => x ∈ anchors) _ _ ?_ ?_ s h
    · intro t ht
      exact (seed_phas eth t).2 (List.mem_reverse.1 ht)
    · intro t ht
      exact ReachP.base t ((seed_phas eth t).1 ht)
  · intro h
    refine traverseFuel_complete _ g (fun x => x ∈ anchors) _ _
      (le_of_eq rfl) ?_ ?_ ?_ s h
    · intro t ht
      exact (seed_phas eth t).2 (List.mem_reverse.1 ht)
    · intro u hu hun v hv
      exact absurd (List.mem_reverse.2 ((seed_phas eth u).1 hu)) hun
    · intro t ht
      exact (seed_phas eth t).2 ht

theorem traverse_closed_of_seed (g : Graph) (eth : ℚ) :
    ∀ u v, phas (traverseStack g anchors.reverse (seed eth)) u = true →
      edgeB g u v = true →
      phas (traverseStack g anchors.reverse (seed eth)) v = true := by
  refine traverseFuel_closed _ g _ _ (le_of_eq rfl) ?_ ?_
  · intro t ht
    exact (seed_phas eth t).2 (List.mem_reverse.1 ht)
  · intro u hu hun v hv
    exact absurd (List.mem_reverse.2 ((seed_phas eth u).1 hu)) hun

/- ------------------------------------------------------------------ -/
/- Per-event loop lemmas.                                              -/
/- ------------------------------------------------------------------ -/

theorem processEvent_snd (oracle : String → ℚ) (g : Graph) (P : PMap)
    (se : SwapEvent) :
    (processEvent oracle g P se).2 =
      if phas P se.token0.symbol then P
      else traverseStack g [se.token0.symbol]
        (pset P se.token0.symbol (oracle se.token0.id)) := by
  by_cases h : phas P se.token0.symbol = true
  · simp [processEvent, h]
  · simp [processEvent, h, jsLooseEqFreshDecimal]

theorem processEvent_inv (oracle : String → ℚ) (g : Graph) (P : PMap)
    (se : SwapEvent) (B : String → Prop)
    (hclosed : ∀ u v, phas P u = true → edgeB g u v = true →
      phas P v = true)
    (hchar : ∀ s, phas P s = true ↔ ReachP g B s) :
    (∀ u v, phas (processEvent oracle g P se).2 u = true →
      edgeB g u v = true → phas (processEvent oracle g P se).2 v = true) ∧
    (∀ s, phas (processEvent oracle g P se).2 s = true ↔
      ReachP g (fun x => B x ∨ x = se.token0.symbol) s) := by
  rw [processEvent_snd]
  by_cases h : phas P se.token0.symbol = true
  · rw [if_pos h]
    refine ⟨hclosed, fun s => ?_⟩
    rw [hchar]
    constructor
    · exact reachP_mono g B _ (fun x hx => Or.inl hx) s
    · refine reachP_bind g B _ (fun x hx => ?_) s
      rcases hx with hx | hx
      · exact ReachP.base x hx
      · rw [hx]
        exact (hchar se.token0.symbol).1 h
  · rw [if_neg h]
    set P1 := pset P se.token0.symbol (oracle se.token0.id) with hP1
    have hstack : ∀ s ∈ [se.token0.symbol], phas P1 s = true := by
      intro t ht
      rcases List.mem_singleton.1 ht with rfl
      rw [hP1, phas_pset]
      simp
    have hinv : ∀ u, phas P1 u = true → u ∉ [se.token0.symbol] →
        ∀ v, edgeB g u v = true → phas P1 v = true := by
      intro u hu hun v hv
      have hne : ¬ (u = se.token0.symbol) := by
        intro hc
        exact hun (by simp [hc])
      have hu' : phas P u = true := by
        rw [hP1, phas_pset] at hu
        rcases Bool.or_eq_true_iff.1 hu with h2 | h2
        · exact h2
        · simp only [decide_eq_true_eq] at h2
          exact absurd h2 hne
      have := hclosed u v hu' hv
      rw [hP1, phas_pset]
      simp [this]
    refine ⟨?_, ?_⟩
    · exact traverseFuel_closed _ g _ _ (le_of_eq rfl) hstack hinv
    · intro s
      constructor
      · intro hs
        refine traverseFuel_sound _ g _ _ _ hstack ?_ s hs
        intro t ht
        rw [hP1, phas_pset] at ht
        rcases Bool.or_eq_true_iff.1 ht with h2 | h2
        · exact reachP_mono g B _ (fun x hx => Or.inl hx) t ((hchar t).1 h2)
        · simp only [decide_eq_true_eq] at h2
          exact ReachP.base t (Or.inr h2)
      · intro hs
        refine traverseFuel_complete _ g _ _ _ (le_of_eq rfl) hstack hinv
          ?_ s hs
        intro t ht
        rcases ht with ht | ht
        · have := (hchar t).2 (ReachP.base t ht)
          rw [hP1, phas_pset]
          simp [this]
        · rw [hP1, phas_pset]
          simp [ht]

theorem fillLoop_inv (oracle : String → ℚ) (g : Graph) :
    ∀ (evs : List SwapEvent) (P : PMap) (B : String → Prop),
    (∀ u v, phas P u = true → edgeB g u v = true → phas P v = true) →
    (∀ s, phas P s = true ↔ ReachP g B s) →
    ∀ s, phas (fillLoop oracle g P evs).2 s = true ↔
      ReachP g (fun x => B x ∨ x ∈ evs.map (fun se => se.token0.symbol)) s := by
  intro evs
  induction evs with
  | nil =>
    intro P B hclosed hchar s
    rw [fillLoop]
    rw [hchar]
    refine ⟨reachP_mono g B _ (fun x hx => Or.inl hx) s, ?_⟩
    refine reachP_bind g B _ (fun x hx => ?_) s
    rcases hx with hx | hx
    · exact ReachP.base x hx
    · simp at hx
  | cons se rest ih =>
    intro P B hclosed hchar s
    rw [fillLoop]
    rcases processEvent_inv oracle g P se B hclosed hchar with ⟨hc2, hch2⟩
    have := ih (processEvent oracle g P se).2
      (fun x => B x ∨ x = se.token0.symbol) hc2 hch2 s
    rw [this]
    refine ⟨fun h => ?_, fun h => ?_⟩
    · refine reachP_mono g _ _ (fun x hx => ?_) s h
      rcases hx with (hx | hx) | hx
      · exact Or.inl hx
      · exact Or.inr (by simp [hx])
      · exact Or.inr (by simp [hx])
    · refine reachP_mono g _ _ (fun x hx => ?_) s h
      rcases hx with hx | hx
      · exact Or.inl (Or.inl hx)
      · rw [List.map_cons, List.mem_cons] at hx
        rcases hx with hx | hx
        · exact Or.inl (Or.inr hx)
        · exact Or.inr hx

/- ------------------------------------------------------------------ -/
/- The final price map's domain, and its order invariance.             -/
/- ------------------------------------------------------------------ -/

theorem bool_eq_of_true_iff (a b : Bool) (h : a = true ↔ b = true) :
    a = b := by
  cases a <;> cases b <;> simp_all

theorem fillUSDAmounts_phas_iff (swaps : List SwapEvent) (eth : ℚ)
    (oracle : String → ℚ) (hne : ¬ swaps = []) (s : String) :
    phas (fillUSDAmounts swaps eth oracle).2 s = true ↔
      ReachP (buildGraph swaps) (fun x => x ∈ fillBase swaps) s := by
  unfold fillUSDAmounts
  rw [if_neg hne]
  have h1 := fillLoop_inv oracle (buildGraph swaps) swaps
    (initialPrices swaps eth) (fun x => x ∈ anchors)
    (traverse_closed_of_seed _ eth)
    (fun t => traverse_phas_of_seed _ eth t)
  rw [h1 s]
  refine reachP_congr _ _ _ _ (fun u v => rfl) (fun x => ?_) s
  unfold fillBase
  rw [List.mem_append]

theorem gget_nil (k : String) : gget [] k = none := rfl

theorem gget_cons (p : String × List Edge) (t : Graph) (k : String) :
    gget (p :: t) k = if p.1 = k then some p.2 else gget t k := by
  by_cases h : p.1 = k
  · simp [gget, List.find?_cons_of_pos, h]
  · simp [gget, List.find?_cons_of_neg, h]

theorem ghas_eq_isSome (g : Graph) (k : String) :
    ghas g k = (gget g k).isSome := by
  simp [ghas, gget]

theorem gget_map_addlast (g : Graph) (A : String) (e : Edge) (k : String) :
    gget (g.map (fun p => if p.1 = A then (p.1, p.2 ++ [e]) else p)) k =
      (gget g k).map (fun es => if k = A then es ++ [e] else es) := by
  induction g with
  | nil => simp [gget]
  | cons p t ih =>
    rw [List.map_cons]
    have hkey : (if p.1 = A then (p.1, p.2 ++ [e]) else p).1 = p.1 := by
      by_cases hp : p.1 = A <;> simp [hp]
    rw [gget_cons, gget_cons, hkey]
    by_cases hpk : p.1 = k
    · rw [if_pos hpk, if_pos hpk]
      by_cases hp : p.1 = A
      · have hk : k = A := hpk ▸ hp
        simp [hp, hk]
      · have hk : ¬ (k = A) := fun hh => hp (hpk ▸ hh : p.1 = A)
        simp [hp, hk]
    · rw [if_neg hpk, if_neg hpk]
      exact ih

theorem gget_append_one (g : Graph) (A : String) (es0 : List Edge)
    (u : String) :
    gget (g ++ [(A, es0)]) u =
      if u = A then (gget g u).or (some es0) else gget g u := by
  induction g with
  | nil =>
    by_cases h : u = A
    · simp [gget, h]
    · have h2 : ¬ ((A : String) = u) := fun hh => h hh.symm
      simp [gget, h, h2]
  | cons p t ih =>
    rw [List.cons_append, gget_cons, gget_cons]
    by_cases hpu : p.1 = u
    · by_cases h : u = A <;> simp [hpu, h]
    · simp [hpu, ih]

theorem gget_addEdge (g : Graph) (A B : String) (r : ℚ) (u : String) :
    gget (addEdge g A B r) u =
      if u = A then some ((gget g A).getD [] ++ [⟨B, r⟩])
      else gget g u := by
  unfold addEdge
  by_cases hA : ghas g A = true
  · rw [if_pos hA, gget_map_addlast]
    rw [ghas_eq_isSome] at hA
    cases hg : gget g A with
    | none => rw [hg] at hA; simp at hA
    | some es =>
      by_cases h : u = A
      · subst h
        simp [hg]
      · simp [h]
  · rw [if_neg hA, gget_append_one]
    rw [ghas_eq_isSome] at hA
    by_cases h : u = A
    · subst h
      cases hg : gget g u with
      | none => simp [hg]
      | some es => rw [hg] at hA; simp at hA
    · simp [h]

theorem edgeB_eq_any (g : Graph) (u v : String) :
    edgeB g u v = ((gget g u).getD []).any (fun e => e.symbol = v) := by
  unfold edgeB
  cases hg : gget g u with
  | none => simp
  | some es => simp

theorem edgeB_addEdge_iff (g : Graph) (A B : String) (r : ℚ)
    (u v : String) :
    edgeB (addEdge g A B r) u v = true ↔
      (edgeB g u v = true ∨ (u = A ∧ v = B)) := by
  rw [edgeB_eq_any, edgeB_eq_any, gget_addEdge]
  by_cases h : u = A
  · subst h
    rw [if_pos rfl, Option.getD_some, List.any_append]
    simp only [Bool.or_eq_true, List.any_cons, List.any_nil, Bool.or_false,
      decide_eq_true_eq, true_and, eq_self_iff_true]
    constructor
    · rintro (hc | hc)
      · exact Or.inl hc
      · exact Or.inr hc.symm
    · rintro (hc | hc)
      · exact Or.inl hc
      · exact Or.inr hc.symm
  · rw [if_neg h]
    constructor
    · intro hc
      exact Or.inl hc
    · rintro (hc | ⟨hc, -⟩)
      · exact hc
      · exact absurd hc h

theorem edgeB_nil (u v : String) : edgeB [] u v = false := rfl

theorem edgeB_buildGraph_foldl (swaps : List SwapEvent) (g0 : Graph)
    (u v : String) :
    edgeB (swaps.foldl
      (fun g se =>
        if se.token0.symbol ≠ "" ∧ se.token1.symbol ≠ "" then
          addEdge
            (addEdge g se.token0.symbol se.token1.symbol
              (se.token0.amount / se.token1.amount))
            se.token1.symbol se.token0.symbol
            (se.token1.amount / se.token0.amount)
        else g) g0) u v = true ↔
      edgeB g0 u v = true ∨
        ∃ se ∈ swaps, (se.token0.symbol ≠ "" ∧ se.token1.symbol ≠ "") ∧
          ((u = se.token0.symbol ∧ v = se.token1.symbol) ∨
           (u = se.token1.symbol ∧ v = se.token0.symbol)) := by
  induction swaps generalizing g0 with
  | nil => simp
  | cons se rest ih =>
    rw [List.foldl_cons, ih]
    by_cases hg : se.token0.symbol ≠ "" ∧ se.token1.symbol ≠ ""
    · rw [if_pos hg]
      rw [edgeB_addEdge_iff, edgeB_addEdge_iff]
      constructor
      · rintro (((he | he) | he) | he)
        · exact Or.inl he
        · exact Or.inr ⟨se, List.mem_cons_self _ _, hg, Or.inl he⟩
        · exact Or.inr ⟨se, List.mem_cons_self _ _, hg, Or.inr he⟩
        · rcases he with ⟨se2, hm, hrest⟩
          exact Or.inr ⟨se2, List.mem_cons_of_mem _ hm, hrest⟩
      · rintro (he | ⟨se2, hm, hguard, hdir⟩)
        · exact Or.inl (Or.inl (Or.inl he))
        · rcases List.mem_cons.1 hm with hm | hm
          · subst hm
            rcases hdir with hd | hd
            · exact Or.inl (Or.inl (Or.inr hd))
            · exact Or.inl (Or.inr hd)
          · exact Or.inr ⟨se2, hm, hguard, hdir⟩
    · rw [if_neg hg]
      constructor
      · rintro (he | ⟨se2, hm, hrest⟩)
        · exact Or.inl he
        · exact Or.inr ⟨se2, List.mem_cons_of_mem _ hm, hrest⟩
      · rintro (he | ⟨se2, hm, hguard, hdir⟩)
        · exact Or.inl he
        · rcases List.mem_cons.1 hm with hm | hm
          · subst hm
            exact absurd hguard hg
          · exact Or.inr ⟨se2, hm, hguard, hdir⟩

theorem edgeB_buildGraph_iff (swaps : List SwapEvent) (u v : String) :
    edgeB (buildGraph swaps) u v = true ↔
      ∃ se ∈ swaps, (se.token0.symbol ≠ "" ∧ se.token1.symbol ≠ "") ∧
        ((u = se.token0.symbol ∧ v = se.token1.symbol) ∨
         (u = se.token1.symbol ∧ v = se.token0.symbol)) := by
  unfold buildGraph
  rw [edgeB_buildGraph_foldl]
  simp [edgeB_nil]

theorem edgeB_buildGraph_perm (swaps1 swaps2 : List SwapEvent)
    (h : swaps1.Perm swaps2) (u v : String) :
    edgeB (buildGraph swaps1) u v = edgeB (buildGraph swaps2) u v := by
  apply bool_eq_of_true_iff
  rw [edgeB_buildGraph_iff, edgeB_buildGraph_iff]
  constructor
  · rintro ⟨se, hm, hrest⟩
    exact ⟨se, h.mem_iff.1 hm, hrest⟩
  · rintro ⟨se, hm, hrest⟩
    exact ⟨se, h.mem_iff.2 hm, hrest⟩

theorem fillBase_perm (swaps1 swaps2 : List SwapEvent)
    (h : swaps1.Perm swaps2) (s : String) :
    s ∈ fillBase swaps1 ↔ s ∈ fillBase swaps2 := by
  unfold fillBase
  rw [List.mem_append, List.mem_append]
  have := (h.map (fun se => se.token0.symbol)).mem_iff (a := s)
  rw [this]

/- ------------------------------------------------------------------ -/
/- Preservation of existing prices and of event fields.                -/
/- ------------------------------------------------------------------ -/

theorem processEvent_pget_mono (oracle : String → ℚ) (g : Graph) (P : PMap)
    (se : SwapEvent) (s : String) (v : ℚ) (h : pget P s = some v) :
    pget (processEvent oracle g P se).2 s = some v := by
  rw [processEvent_snd]
  by_cases h0 : phas P se.token0.symbol = true
  · rw [if_pos h0]
    exact h
  · rw [if_neg h0]
    apply traverseFuel_pget_mono
    have hs : phas P s = true := by rw [phas_eq_isSome, h]; rfl
    have hne : ¬ s = se.token0.symbol := fun hh => h0 (hh ▸ hs)
    rw [pget_pset]
    simp [hne, h]

theorem fillLoop_pget_mono (oracle : String → ℚ) (g : Graph) :
    ∀ (evs : List SwapEvent) (P : PMap) (s : String) (v : ℚ),
    pget P s = some v → pget (fillLoop oracle g P evs).2 s = some v := by
  intro evs
  induction evs with
  | nil => intro P s v h; simpa [fillLoop] using h
  | cons se rest ih =>
    intro P s v h
    rw [fillLoop]
    exact ih _ s v (processEvent_pget_mono oracle g P se s v h)

theorem fillLoop_phas_mono (oracle : String → ℚ) (g : Graph)
    (evs : List SwapEvent) (P : PMap) (s : String) (h : phas P s = true) :
    phas (fillLoop oracle g P evs).2 s = true := by
  rw [phas_eq_isSome] at h ⊢
  cases hp : pget P s with
  | none => rw [hp] at h; simp at h
  | some v => rw [fillLoop_pget_mono oracle g evs P s v hp]; rfl

theorem setFields_token0_symbol (P : PMap) (se : SwapEvent) :
    (setFields P se).token0.symbol = se.token0.symbol := by
  unfold setFields
  by_cases h0 : phas P se.token0.symbol = true
  · by_cases h1 : phas P se.token1.symbol = true <;> simp [h0, h1]
  · simp [h0]

theorem setFields_token1_symbol (P : PMap) (se : SwapEvent) :
    (setFields P se).token1.symbol = se.token1.symbol := by
  unfold setFields
  by_cases h0 : phas P se.token0.symbol = true
  · by_cases h1 : phas P se.token1.symbol = true <;> simp [h0, h1]
  · simp [h0]

theorem setFields_token0_value (P : PMap) (se : SwapEvent) :
    (setFields P se).token0.value_in_usd =
      if phas P se.token0.symbol then
        some ((pget P se.token0.symbol).getD 0)
      else se.token0.value_in_usd := by
  unfold setFields
  by_cases h0 : phas P se.token0.symbol = true
  · by_cases h1 : phas P se.token1.symbol = true <;> simp [h0, h1]
  · simp [h0]

theorem setFields_token1_value (P : PMap) (se : SwapEvent) :
    (setFields P se).token1.value_in_usd =
      if phas P se.token0.symbol && phas P se.token1.symbol then
        some ((pget P se.token1.symbol).getD 0)
      else se.token1.value_in_usd := by
  unfold setFields
  by_cases h0 : phas P se.token0.symbol = true
  · by_cases h1 : phas P se.token1.symbol = true <;> simp [h0, h1]
  · simp [h0]

theorem processEvent_fst (oracle : String → ℚ) (g : Graph) (P : PMap)
    (se : SwapEvent) :
    (processEvent oracle g P se).1 =
      if phas P se.token0.symbol then
        setFields P (setFields P se)
      else setFields (processEvent oracle g P se).2 se := by
  by_cases h0 : phas P se.token0.symbol = true
  · simp [processEvent, h0]
  · simp [processEvent, h0, jsLooseEqFreshDecimal]

theorem processEvent_token0_symbol (oracle : String → ℚ) (g : Graph)
    (P : PMap) (se : SwapEvent) :
    (processEvent oracle g P se).1.token0.symbol = se.token0.symbol := by
  rw [processEvent_fst]
  by_cases h0 : phas P se.token0.symbol = true
  · rw [if_pos h0, setFields_token0_symbol, setFields_token0_symbol]
  · rw [if_neg h0, setFields_token0_symbol]

theorem processEvent_token1_symbol (oracle : String → ℚ) (g : Graph)
    (P : PMap) (se : SwapEvent) :
    (processEvent oracle g P se).1.token1.symbol = se.token1.symbol := by
  rw [processEvent_fst]
  by_cases h0 : phas P se.token0.symbol = true
  · rw [if_pos h0, setFields_token1_symbol, setFields_token1_symbol]
  · rw [if_neg h0, setFields_token1_symbol]

theorem processEvent_phas_mono (oracle : String → ℚ) (g : Graph) (P : PMap)
    (se : SwapEvent) (s : String) (h : phas P s = true) :
    phas (processEvent oracle g P se).2 s = true := by
  rw [phas_eq_isSome] at h ⊢
  cases hp : pget P s with
  | none => rw [hp] at h; simp at h
  | some v => rw [processEvent_pget_mono oracle g P se s v hp]; rfl

theorem processEvent_token0_value (oracle : String → ℚ) (g : Graph)
    (P : PMap) (se : SwapEvent)
    (h : (processEvent oracle g P se).1.token0.value_in_usd.isSome = true) :
    phas (processEvent oracle g P se).2 se.token0.symbol = true ∨
      se.token0.value_in_usd.isSome = true := by
  rw [processEvent_fst] at h
  by_cases h0 : phas P se.token0.symbol = true
  · refine Or.inl ?_
    rw [processEvent_snd, if_pos h0]
    exact h0
  · rw [if_neg h0, setFields_token0_value] at h
    by_cases h2 : phas (processEvent oracle g P se).2 se.token0.symbol = true
    · exact Or.inl h2
    · rw [if_neg h2] at h
      exact Or.inr h

theorem processEvent_token1_value (oracle : String → ℚ) (g : Graph)
    (P : PMap) (se : SwapEvent)
    (h : (processEvent oracle g P se).1.token1.value_in_usd.isSome = true) :
    phas (processEvent oracle g P se).2 se.token1.symbol = true ∨
      se.token1.value_in_usd.isSome = true := by
  rw [processEvent_fst] at h
  by_cases h0 : phas P se.token0.symbol = true
  · rw [if_pos h0, setFields_token1_value, setFields_token0_symbol,
      setFields_token1_symbol, setFields_token1_value] at h
    by_cases h1 : phas P se.token1.symbol = true
    · refine Or.inl ?_
      rw [processEvent_snd, if_pos h0]
      exact h1
    · rw [if_neg (by simp [h1]), if_neg (by simp [h1])] at h
      exact Or.inr h
  · rw [if_neg h0, setFields_token1_value] at h
    by_cases h1 : (phas (processEvent oracle g P se).2 se.token0.symbol &&
        phas (processEvent oracle g P se).2 se.token1.symbol) = true
    · exact Or.inl (Bool.and_eq_true_iff.1 h1).2
    · rw [if_neg h1] at h
      exact Or.inr h

theorem fillLoop_fields (oracle : String → ℚ) (g : Graph) :
    ∀ (evs : List SwapEvent) (P : PMap),
    (∀ se ∈ evs, se.token0.value_in_usd = none ∧
      se.token1.value_in_usd = none) →
    ∀ se' ∈ (fillLoop oracle g P evs).1,
      (se'.token0.value_in_usd.isSome = true →
        phas (fillLoop oracle g P evs).2 se'.token0.symbol = true) ∧
      (se'.token1.value_in_usd.isSome = true →
        phas (fillLoop oracle g P evs).2 se'.token1.symbol = true) := by
  intro evs
  induction evs with
  | nil =>
    intro P _ se' hm
    rw [fillLoop] at hm
    simp at hm
  | cons se rest ih =>
    intro P hclean se' hm
    rw [fillLoop] at hm ⊢
    rcases List.mem_cons.1 hm with hm | hm
    · subst hm
      constructor
      · intro hv
        rw [processEvent_token0_symbol]
        rcases processEvent_token0_value oracle g P se hv with h | h
        · exact fillLoop_phas_mono oracle g rest _ _ h
        · rw [(hclean se (List.mem_cons_self _ _)).1] at h
          simp at h
      · intro hv
        rw [processEvent_token1_symbol]
        rcases processEvent_token1_value oracle g P se hv with h | h
        · exact fillLoop_phas_mono oracle g rest _ _ h
        · rw [(hclean se (List.mem_cons_self _ _)).2] at h
          simp at h
    · exact ih (processEvent oracle g P se).2
        (fun e he => hclean e (List.mem_cons_of_mem _ he)) se' hm

theorem processEvent_oracle_irrel (oracle1 oracle2 : String → ℚ) (g : Graph)
    (P : PMap) (se : SwapEvent) (h : phas P se.token0.symbol = true) :
    processEvent oracle1 g P se = processEvent oracle2 g P se := by
  simp [processEvent, h]

theorem fillLoop_oracle_irrel (oracle1 oracle2 : String → ℚ) (g : Graph) :
    ∀ (evs : List SwapEvent) (P : PMap),
    (∀ se ∈ evs, phas P se.token0.symbol = true) →
    fillLoop oracle1 g P evs = fillLoop oracle2 g P evs := by
  intro evs
  induction evs with
  | nil => intro P _; rfl
  | cons se rest ih =>
    intro P h
    rw [fillLoop, fillLoop]
    rw [processEvent_oracle_irrel oracle1 oracle2 g P se
      (h se (List.mem_cons_self _ _))]
    rw [ih (processEvent oracle2 g P se).2 ?_]
    intro e he
    exact processEvent_phas_mono oracle2 g P se _
      (h e (List.mem_cons_of_mem _ he))

/- ------------------------------------------------------------------ -/
/- Claim theorems.                                                     -/
/- ------------------------------------------------------------------ -/

set_option maxRecDepth 400000

/-- C2 (code evaluation): `parseSwapEvents` has no try/finally, so when any
awaited step rejects (here: the ETH price fetch), the `PARSING` flag stays
`true`; only a fully successful cycle clears it; and while `PARSING` is
set, the websocket handler drops every arriving log, so the aggregator is
permanently locked out.  This contradicts the claim that the flag is
cleared whether the cycle succeeds or fails. -/
theorem parseSwapEvents_exception_keeps_parsing_set :
    (parseSwapEventsRun (.error ()) (fun _ => .ok [])
      (fun _ => .ok ())).parsing = true ∧
    (parseSwapEventsRun (.ok 1) (fun _ => .ok [])
      (fun _ => .ok ())).parsing = false ∧
    onLog true false [] "log" = [] ∧
    onLog true true ["old"] "log" = ["old"] := by
  refine ⟨rfl, rfl, rfl, rfl⟩

/-- C3 (code evaluation): the guard `usdPrice == new Decimal(0)` compares
two distinct objects by reference and is always false, so a zero oracle
answer (the oracle's failure value) is still seeded into the price map:
token `Z` gets price 0, the 0 propagates to its neighbor `W`, and both
legs' USD fields are set to 0 — instead of the price being left absent as
the claim states. -/
theorem fillUSDAmounts_zero_oracle_price_still_seeded :
    pget (fillUSDAmounts [swapZW] 1600 failingOracle).2 "Z" = some 0 ∧
    pget (fillUSDAmounts [swapZW] 1600 failingOracle).2 "W" = some 0 ∧
    (fillUSDAmounts [swapZW] 1600 failingOracle).1.map
      (fun e => (e.token0.value_in_usd, e.token1.value_in_usd)) =
      [(some 0, some 0)] := by
  refine ⟨?_, ?_, ?_⟩ <;> with_unfolding_all decide

/-- C8: directional normalization — for nonzero raw deltas of opposite
sign, `token0` (leg0) carries the positive scaled delta with its token's
symbol, and `token1` (leg1) carries the absolute value of the other raw
delta scaled by its own token's decimals, with that token's symbol. -/
theorem normalizeSwap_directional (pair : PairToken) (amount0 amount1 : ℤ)
    (h0 : amount0 ≠ 0) (h1 : amount1 ≠ 0) (hop : amount0 * amount1 < 0) :
    0 ≤ (normalizeSwap pair amount0 amount1).1.amount ∧
    (0 < amount0 →
      (normalizeSwap pair amount0 amount1).1 =
        ⟨pair.token0.symbol, formatUnits amount0 pair.token0.decimal⟩ ∧
      (normalizeSwap pair amount0 amount1).2 =
        ⟨pair.token1.symbol, |formatUnits amount1 pair.token1.decimal|⟩) ∧
    (amount0 < 0 →
      (normalizeSwap pair amount0 amount1).1 =
        ⟨pair.token1.symbol, formatUnits amount1 pair.token1.decimal⟩ ∧
      (normalizeSwap pair amount0 amount1).2 =
        ⟨pair.token0.symbol, |formatUnits amount0 pair.token0.decimal|⟩) := by
  have hpow0 : (0 : ℚ) < 10 ^ pair.token0.decimal := by positivity
  have hpow1 : (0 : ℚ) < 10 ^ pair.token1.decimal := by positivity
  rcases lt_or_gt_of_ne h0 with hneg | hpos
  · have ha1 : 0 < amount1 := by nlinarith
    have hf0 : formatUnits amount0 pair.token0.decimal < 0 := by
      unfold formatUnits
      apply div_neg_of_neg_of_pos _ hpow0
      exact_mod_cast hneg
    have hf1 : 0 < formatUnits amount1 pair.token1.decimal := by
      unfold formatUnits
      apply div_pos _ hpow1
      exact_mod_cast ha1
    have hcond : ¬ (isPositiveDec (formatUnits amount0 pair.token0.decimal)
        = true) := by
      unfold isPositiveDec
      simp only [decide_eq_true_eq, not_le]
      exact hf0
    unfold normalizeSwap
    rw [if_neg hcond]
    refine ⟨le_of_lt hf1, fun hc => absurd hc (not_lt.2 (le_of_lt hneg)),
      fun _ => ⟨rfl, rfl⟩⟩
  · have hf0 : 0 < formatUnits amount0 pair.token0.decimal := by
      unfold formatUnits
      apply div_pos _ hpow0
      exact_mod_cast hpos
    have hcond : isPositiveDec (formatUnits amount0 pair.token0.decimal)
        = true := by
      unfold isPositiveDec
      simp only [decide_eq_true_eq]
      exact le_of_lt hf0
    unfold normalizeSwap
    rw [if_pos hcond]
    refine ⟨le_of_lt hf0, fun _ => ⟨rfl, rfl⟩,
      fun hc => absurd hc (not_lt.2 (le_of_lt hpos))⟩

/-- C8 witness at `amount0 = 5`, `amount1 = -3`. -/
theorem normalizeSwap_directional_witness :
    ((5 : ℤ) ≠ 0 ∧ (-3 : ℤ) ≠ 0 ∧ (5 : ℤ) * (-3) < 0) ∧
    (0 ≤ (normalizeSwap ⟨⟨"a", "AAA", 2⟩, ⟨"b", "BBB", 3⟩⟩ 5 (-3)).1.amount ∧
      (0 < (5 : ℤ) →
        (normalizeSwap ⟨⟨"a", "AAA", 2⟩, ⟨"b", "BBB", 3⟩⟩ 5 (-3)).1 =
          ⟨"AAA", formatUnits 5 2⟩ ∧
        (normalizeSwap ⟨⟨"a", "AAA", 2⟩, ⟨"b", "BBB", 3⟩⟩ 5 (-3)).2 =
          ⟨"BBB", |formatUnits (-3) 3|⟩) ∧
      ((5 : ℤ) < 0 →
        (normalizeSwap ⟨⟨"a", "AAA", 2⟩, ⟨"b", "BBB", 3⟩⟩ 5 (-3)).1 =
          ⟨"BBB", formatUnits (-3) 3⟩ ∧
        (normalizeSwap ⟨⟨"a", "AAA", 2⟩, ⟨"b", "BBB", 3⟩⟩ 5 (-3)).2 =
          ⟨"AAA", |formatUnits 5 2|⟩)) :=
  ⟨⟨by decide, by decide, by decide⟩,
    normalizeSwap_directional ⟨⟨"a", "AAA", 2⟩, ⟨"b", "BBB", 3⟩⟩ 5 (-3)
      (by decide) (by decide) (by decide)⟩

/-- C9: the database write loop attempts every row independently — its
outcome list is exactly one `try`/`catch`-guarded attempt per event, in
order, so a failure on one row never prevents later rows and the loop
itself never raises; concretely, with a client that fails exactly on row 2
of a 3-row batch, the outcomes are `[true, false, true]`. -/
theorem persistBatch_rows_independent :
    (∀ (client : List String → Except String Unit) (eth : ℚ)
      (ts : String) (evs : List SwapEvent),
      persistBatch client eth ts evs =
        evs.map (fun e => attemptRow client (toRow eth ts e))) ∧
    persistBatch failingClient 1600 "ts0"
      [persistEvent1, persistEvent2, persistEvent3] =
      [true, false, true] := by
  constructor
  · intro client eth ts evs
    induction evs with
    | nil => rfl
    | cons e rest ih => rw [persistBatch, List.map_cons, ih]
  · with_unfolding_all decide

/-- C10: when a leg's USD unit price, total value, amount, or the ETH
reference rate is absent, the persisted row still carries the decimal
string "0" in that column (every column present, none omitted), and the
row is identical to the one written for genuinely zero values — a store
consumer cannot distinguish the two. -/
theorem rowValues_absent_written_as_zero :
    (∀ (bn : ℕ) (bh tx fa i0 s0 i1 s1 ts : String),
      rowValues bn bh tx fa i0 s0 none none none i1 s1 none none none
          none ts =
        [bn.repr, bh, tx, fa, i0, s0, "0", "0", "0", i1, s1, "0", "0",
         "0", "0", ts]) ∧
    (∀ (bn : ℕ) (bh tx fa i0 s0 i1 s1 ts : String),
      rowValues bn bh tx fa i0 s0 none none none i1 s1 none none none
          none ts =
        rowValues bn bh tx fa i0 s0 (some 0) (some 0) (some 0) i1 s1
          (some 0) (some 0) (some 0) (some 0) ts) := by
  constructor
  · intro bn bh tx fa i0 s0 i1 s1 ts
    rfl
  · intro bn bh tx fa i0 s0 i1 s1 ts
    rfl

theorem fillLoop_snd_congr (oracle : String → ℚ) (g : Graph) :
    ∀ (evs1 evs2 : List SwapEvent) (P : PMap),
    evs1.map (fun se => (se.token0.id, se.token0.symbol)) =
      evs2.map (fun se => (se.token0.id, se.token0.symbol)) →
    (fillLoop oracle g P evs1).2 = (fillLoop oracle g P evs2).2 := by
  intro evs1
  induction evs1 with
  | nil =>
    intro evs2 P h
    cases evs2 with
    | nil => rfl
    | cons b l => simp at h
  | cons se1 rest1 ih =>
    intro evs2 P h
    cases evs2 with
    | nil => simp at h
    | cons se2 rest2 =>
      rw [List.map_cons, List.map_cons] at h
      have hhead := (List.cons.inj h).1
      have htail := (List.cons.inj h).2
      have hid : se1.token0.id = se2.token0.id :=
        congrArg Prod.fst hhead
      have hsym : se1.token0.symbol = se2.token0.symbol :=
        congrArg Prod.snd hhead
      rw [fillLoop, fillLoop]
      have hP : (processEvent oracle g P se1).2 =
          (processEvent oracle g P se2).2 := by
        rw [processEvent_snd, processEvent_snd, hid, hsym]
      rw [hP]
      exact ih rest2 _ htail

theorem fillUSDAmounts_oracle_irrel (swaps : List SwapEvent) (eth : ℚ)
    (oracle1 oracle2 : String → ℚ)
    (h : ∀ se ∈ swaps, phas (initialPrices swaps eth) se.token0.symbol
      = true) :
    fillUSDAmounts swaps eth oracle1 = fillUSDAmounts swaps eth oracle2 := by
  unfold fillUSDAmounts
  by_cases hne : swaps = []
  · rw [if_pos hne, if_pos hne]
  · rw [if_neg hne, if_neg hne]
    exact fillLoop_oracle_irrel oracle1 oracle2 _ swaps _ h

/-- C1: for any batch realizing the edges `USDC→X` with ratio 2 and `X→Y`
with ratio 3 (arbitrary nonzero amounts with those quotients, arbitrary
oracle — never consulted), propagation from the anchor seeding
(`USDC = 1`) assigns `price(X) = 2` and `price(Y) = 6`, in exact
arithmetic. -/
theorem fillUSDAmounts_propagates_anchor_ratios (a0 a1 b0 b1 : ℚ)
    (oracle : String → ℚ) (ha0 : a0 ≠ 0) (ha1 : a1 ≠ 0) (hb0 : b0 ≠ 0)
    (hb1 : b1 ≠ 0) (hr1 : a0 / a1 = 2) (hr2 : b0 / b1 = 3) :
    pget (fillUSDAmounts
      [mkSwapEvent "idUSDC" "USDC" a0 "idX" "X" a1,
       mkSwapEvent "idX" "X" b0 "idY" "Y" b1] 1600 oracle).2 "X" =
      some 2 ∧
    pget (fillUSDAmounts
      [mkSwapEvent "idUSDC" "USDC" a0 "idX" "X" a1,
       mkSwapEvent "idX" "X" b0 "idY" "Y" b1] 1600 oracle).2 "Y" =
      some 6 := by
  have hr1' : a1 / a0 = 1 / 2 := by
    rw [← inv_div, hr1]
    norm_num
  have hr2' : b1 / b0 = 1 / 3 := by
    rw [← inv_div, hr2]
    norm_num
  have hg : buildGraph [mkSwapEvent "idUSDC" "USDC" a0 "idX" "X" a1,
      mkSwapEvent "idX" "X" b0 "idY" "Y" b1] =
      buildGraph [mkSwapEvent "idUSDC" "USDC" 2 "idX" "X" 1,
      mkSwapEvent "idX" "X" 3 "idY" "Y" 1] := by
    simp [buildGraph, addEdge, ghas, gget, mkSwapEvent, List.find?]
    norm_num [hr1, hr1', hr2, hr2']
  have hsnd : (fillUSDAmounts
      [mkSwapEvent "idUSDC" "USDC" a0 "idX" "X" a1,
       mkSwapEvent "idX" "X" b0 "idY" "Y" b1] 1600 oracle).2 =
      (fillUSDAmounts [mkSwapEvent "idUSDC" "USDC" 2 "idX" "X" 1,
       mkSwapEvent "idX" "X" 3 "idY" "Y" 1] 1600 oracle).2 := by
    unfold fillUSDAmounts initialPrices
    rw [if_neg (by simp : ¬ ([mkSwapEvent "idUSDC" "USDC" a0 "idX" "X" a1,
      mkSwapEvent "idX" "X" b0 "idY" "Y" b1] = [])),
      if_neg (by simp : ¬ ([mkSwapEvent "idUSDC" "USDC" 2 "idX" "X" 1,
      mkSwapEvent "idX" "X" 3 "idY" "Y" 1] = []))]
    rw [hg]
    exact fillLoop_snd_congr oracle _ _ _ _ rfl
  have horc : fillUSDAmounts [mkSwapEvent "idUSDC" "USDC" 2 "idX" "X" 1,
      mkSwapEvent "idX" "X" 3 "idY" "Y" 1] 1600 oracle =
      fillUSDAmounts [mkSwapEvent "idUSDC" "USDC" 2 "idX" "X" 1,
      mkSwapEvent "idX" "X" 3 "idY" "Y" 1] 1600 zeroOracle := by
    apply fillUSDAmounts_oracle_irrel
    intro se hm
    fin_cases hm <;> with_unfolding_all decide
  rw [hsnd, horc]
  constructor <;> with_unfolding_all decide

/-- C1 witness at amounts `(2, 1)` and `(3, 1)` with the zero oracle. -/
theorem fillUSDAmounts_propagates_anchor_ratios_witness :
    ((2 : ℚ) ≠ 0 ∧ (1 : ℚ) ≠ 0 ∧ (3 : ℚ) ≠ 0 ∧ (2 : ℚ) / 1 = 2 ∧
      (3 : ℚ) / 1 = 3) ∧
    (pget (fillUSDAmounts
      [mkSwapEvent "idUSDC" "USDC" 2 "idX" "X" 1,
       mkSwapEvent "idX" "X" 3 "idY" "Y" 1] 1600 zeroOracle).2 "X" =
      some 2 ∧
    pget (fillUSDAmounts
      [mkSwapEvent "idUSDC" "USDC" 2 "idX" "X" 1,
       mkSwapEvent "idX" "X" 3 "idY" "Y" 1] 1600 zeroOracle).2 "Y" =
      some 6) :=
  ⟨⟨by norm_num, by norm_num, by norm_num, by norm_num, by norm_num⟩,
    fillUSDAmounts_propagates_anchor_ratios 2 1 3 1 zeroOracle
      (by norm_num) (by norm_num) (by norm_num) (by norm_num)
      (by norm_num) (by norm_num)⟩

/-- C4 counterexample: the two orderings of the same two-swap multiset
(both swaps between USDC and X, ratios 2 and 3) are a permutation of each
other, yet the first ordering prices X at 2 and the second at 3 — the
price map is not permutation invariant. -/
theorem fillUSDAmounts_order_dependent :
    [swapUSDC2X, swapUSDC3X].Perm [swapUSDC3X, swapUSDC2X] ∧
    pget (fillUSDAmounts [swapUSDC2X, swapUSDC3X] 1600 zeroOracle).2 "X" =
      some 2 ∧
    pget (fillUSDAmounts [swapUSDC3X, swapUSDC2X] 1600 zeroOracle).2 "X" =
      some 3 := by
  refine ⟨List.Perm.swap _ _ _, ?_, ?_⟩ <;> with_unfolding_all decide

/-- C4 (amended): under permutation of the batch's swap events (fixed
anchors and oracle), the set of tokens that receive a price — the domain
of the final price map — is invariant, although individual price values
need not be. -/
theorem fillUSDAmounts_perm_invariant_domain
    (swaps1 swaps2 : List SwapEvent) (h : swaps1.Perm swaps2) (eth : ℚ)
    (oracle : String → ℚ) (s : String) :
    phas (fillUSDAmounts swaps1 eth oracle).2 s =
      phas (fillUSDAmounts swaps2 eth oracle).2 s := by
  by_cases hne : swaps1 = []
  · subst hne
    have h2 : swaps2 = [] := List.Perm.eq_nil h.symm
    rw [h2]
  · have hne2 : ¬ swaps2 = [] := by
      intro hc
      rw [hc] at h
      exact hne (List.Perm.eq_nil h)
    apply bool_eq_of_true_iff
    rw [fillUSDAmounts_phas_iff swaps1 eth oracle hne s,
      fillUSDAmounts_phas_iff swaps2 eth oracle hne2 s]
    exact reachP_congr _ _ _ _ (edgeB_buildGraph_perm swaps1 swaps2 h)
      (fillBase_perm swaps1 swaps2 h) s

/-- C4 witness: the amended domain invariance applied to the concrete
permuted pair of batches from the counterexample. -/
theorem fillUSDAmounts_perm_invariant_domain_witness :
    [swapUSDC2X, swapUSDC3X].Perm [swapUSDC3X, swapUSDC2X] ∧
    phas (fillUSDAmounts [swapUSDC2X, swapUSDC3X] 1600 zeroOracle).2 "X" =
      phas (fillUSDAmounts [swapUSDC3X, swapUSDC2X] 1600 zeroOracle).2 "X" :=
  ⟨List.Perm.swap _ _ _,
    fillUSDAmounts_perm_invariant_domain _ _ (List.Perm.swap _ _ _) 1600
      zeroOracle "X"⟩

/-- C5: already-priced symbols are never overwritten — any value present in
the price map survives the whole traversal unchanged (first conjunct), the
seeded anchor prices survive the whole of `fillUSDAmounts` (second
conjunct), and for the two-path batch `USDC→Z` (ratio 2) and `USDT→Z`
(ratio 3), the fixed stack discipline pops USDT before USDC, so Z's final
price is 3, deterministically. -/
theorem fillUSDAmounts_first_reached_wins :
    (∀ (f : ℕ) (g : Graph) (st : List String) (P : PMap) (s : String)
      (v : ℚ), pget P s = some v → pget (traverseFuel f g st P) s = some v) ∧
    (∀ (swaps : List SwapEvent) (eth : ℚ) (oracle : String → ℚ)
      (s : String) (v : ℚ), ¬ swaps = [] → pget (seed eth) s = some v →
      pget (fillUSDAmounts swaps eth oracle).2 s = some v) ∧
    pget (fillUSDAmounts [swapUSDC2Z, swapUSDT3Z] 1600 zeroOracle).2 "Z" =
      some 3 := by
  refine ⟨traverseFuel_pget_mono, ?_, ?_⟩
  · intro swaps eth oracle s v hne h
    unfold fillUSDAmounts
    rw [if_neg hne]
    apply fillLoop_pget_mono
    unfold initialPrices traverseStack
    exact traverseFuel_pget_mono _ _ _ _ _ _ h
  · with_unfolding_all decide

/-- C5 witness: preservation applied to a concrete map and to the USDT
anchor through a concrete batch. -/
theorem fillUSDAmounts_first_reached_wins_witness :
    (pget [("USDC", (1 : ℚ))] "USDC" = some 1 ∧
      pget (traverseFuel 5 [] ["USDC"] [("USDC", (1 : ℚ))]) "USDC" =
        some 1) ∧
    (¬ ([swapUSDC2Z] : List SwapEvent) = [] ∧
      pget (seed 1600) "USDT" = some 1 ∧
      pget (fillUSDAmounts [swapUSDC2Z] 1600 zeroOracle).2 "USDT" =
        some 1) :=
  ⟨⟨by with_unfolding_all decide,
    fillUSDAmounts_first_reached_wins.1 5 [] ["USDC"] _ "USDC" 1
      (by with_unfolding_all decide)⟩,
   ⟨by decide, by with_unfolding_all decide,
    fillUSDAmounts_first_reached_wins.2.1 [swapUSDC2Z] 1600 zeroOracle
      "USDT" 1 (by decide) (by with_unfolding_all decide)⟩⟩

/-- C6: when an event's first-leg token is unpriced, the per-event fallback
seeds it with exactly the oracle's answer (first conjunct); every token
reachable from the anchors together with the events' first-leg tokens ends
up priced (second conjunct — re-running the traversal from the new anchor
prices the whole newly reachable region); and on the concrete batch
`A–B` (ratio 5) and `B–C` (ratio 3) with the oracle answering 7 for A,
the final prices are `A = 7`, `B = 35`, `C = 105` — the oracle price
multiplied along the edge path. -/
theorem fillUSDAmounts_oracle_reseeds :
    (∀ (oracle : String → ℚ) (g : Graph) (P : PMap) (se : SwapEvent),
      phas P se.token0.symbol = false →
      pget (processEvent oracle g P se).2 se.token0.symbol =
        some (oracle se.token0.id)) ∧
    (∀ (swaps : List SwapEvent) (eth : ℚ) (oracle : String → ℚ)
      (s : String), ¬ swaps = [] →
      ReachP (buildGraph swaps) (fun x => x ∈ fillBase swaps) s →
      phas (fillUSDAmounts swaps eth oracle).2 s = true) ∧
    pget (fillUSDAmounts [swapAB, swapBC] 1600 (fun _ => 7)).2 "A" =
      some 7 ∧
    pget (fillUSDAmounts [swapAB, swapBC] 1600 (fun _ => 7)).2 "B" =
      some 35 ∧
    pget (fillUSDAmounts [swapAB, swapBC] 1600 (fun _ => 7)).2 "C" =
      some 105 := by
  refine ⟨?_, ?_, ?_, ?_, ?_⟩
  · intro oracle g P se h
    rw [processEvent_snd, if_neg (by simp [h])]
    apply traverseFuel_pget_mono
    rw [pget_pset]
    simp
  · intro swaps eth oracle s hne hr
    exact (fillUSDAmounts_phas_iff swaps eth oracle hne s).2 hr
  all_goals with_unfolding_all decide

/-- C6 witness: the seeding conjunct applied to an empty price map, and the
coverage conjunct applied to an anchor of a concrete batch. -/
theorem fillUSDAmounts_oracle_reseeds_witness :
    (phas ([] : PMap) swapAB.token0.symbol = false ∧
      pget (processEvent (fun _ => 7) (buildGraph [swapAB]) [] swapAB).2
        swapAB.token0.symbol = some 7) ∧
    (¬ ([swapZW] : List SwapEvent) = [] ∧
      ReachP (buildGraph [swapZW]) (fun x => x ∈ fillBase [swapZW])
        "USDC" ∧
      phas (fillUSDAmounts [swapZW] 1600 zeroOracle).2 "USDC" = true) :=
  ⟨⟨by decide,
    fillUSDAmounts_oracle_reseeds.1 (fun _ => 7) (buildGraph [swapAB]) []
      swapAB (by decide)⟩,
   ⟨by decide, ReachP.base "USDC" (by decide),
    fillUSDAmounts_oracle_reseeds.2.1 [swapZW] 1600 zeroOracle "USDC"
      (by decide) (ReachP.base "USDC" (by decide))⟩⟩

/-- C7 counterexample: in the batch `[swapUSDCBlank, swapBlankUSDC]` the
first event's second leg (symbol `""`) ends with no USD fields although
`""` is priced in the final map (seeded at 7 by the oracle fallback of the
second event) — "present iff priced in the final map" fails. -/
theorem fillUSDAmounts_fields_iff_counterexample :
    (fillUSDAmounts [swapUSDCBlank, swapBlankUSDC] 1 (fun _ => 7)).1.map
      (fun e => e.token1.symbol) = ["", "USDC"] ∧
    (fillUSDAmounts [swapUSDCBlank, swapBlankUSDC] 1 (fun _ => 7)).1.map
      (fun e => e.token1.value_in_usd) = [none, some 1] ∧
    phas (fillUSDAmounts [swapUSDCBlank, swapBlankUSDC] 1
      (fun _ => 7)).2 "" = true := by
  refine ⟨?_, ?_, ?_⟩ <;> with_unfolding_all decide

/-- C7 (amended): for a batch of freshly decoded events (USD fields unset),
a leg's USD fields are present only if its token is priced in the final
map (the converse fails, see the counterexample); and the oracle is
consulted only when some event's first-leg token is unpriced: if every
first leg is priced after the initial anchor traversal, the result does
not depend on the oracle at all. -/
theorem fillUSDAmounts_fields_amended :
    (∀ (swaps : List SwapEvent) (eth : ℚ) (oracle : String → ℚ),
      (∀ se ∈ swaps, se.token0.value_in_usd = none ∧
        se.token1.value_in_usd = none) →
      ∀ se' ∈ (fillUSDAmounts swaps eth oracle).1,
        (se'.token0.value_in_usd.isSome = true →
          phas (fillUSDAmounts swaps eth oracle).2 se'.token0.symbol
            = true) ∧
        (se'.token1.value_in_usd.isSome = true →
          phas (fillUSDAmounts swaps eth oracle).2 se'.token1.symbol
            = true)) ∧
    (∀ (swaps : List SwapEvent) (eth : ℚ) (oracle1 oracle2 : String → ℚ),
      (∀ se ∈ swaps, phas (initialPrices swaps eth) se.token0.symbol
        = true) →
      fillUSDAmounts swaps eth oracle1 = fillUSDAmounts swaps eth oracle2)
    := by
  constructor
  · intro swaps eth oracle hclean se' hm
    unfold fillUSDAmounts at hm ⊢
    by_cases hne : swaps = []
    · rw [if_pos hne] at hm
      simp at hm
    · rw [if_neg hne] at hm ⊢
      exact fillLoop_fields oracle _ swaps _ hclean se' hm
  · exact fun swaps eth o1 o2 h =>
      fillUSDAmounts_oracle_irrel swaps eth o1 o2 h

/-- C7 witness: both amended conjuncts applied to the one-swap batch
`[swapUSDC2X]`. -/
theorem fillUSDAmounts_fields_amended_witness :
    ((∀ se ∈ ([swapUSDC2X] : List SwapEvent),
        se.token0.value_in_usd = none ∧ se.token1.value_in_usd = none) ∧
      filledUSDC2X ∈ (fillUSDAmounts [swapUSDC2X] 1600 zeroOracle).1 ∧
      ((filledUSDC2X.token0.value_in_usd.isSome = true →
        phas (fillUSDAmounts [swapUSDC2X] 1600 zeroOracle).2
          filledUSDC2X.token0.symbol = true) ∧
       (filledUSDC2X.token1.value_in_usd.isSome = true →
        phas (fillUSDAmounts [swapUSDC2X] 1600 zeroOracle).2
          filledUSDC2X.token1.symbol = true))) ∧
    ((∀ se ∈ ([swapUSDC2X] : List SwapEvent),
        phas (initialPrices [swapUSDC2X] 1600) se.token0.symbol = true) ∧
      fillUSDAmounts [swapUSDC2X] 1600 zeroOracle =
        fillUSDAmounts [swapUSDC2X] 1600 failingOracle) :=
  ⟨⟨by decide, by with_unfolding_all decide,
    fillUSDAmounts_fields_amended.1 [swapUSDC2X] 1600 zeroOracle
      (by decide) filledUSDC2X (by with_unfolding_all decide)⟩,
   ⟨by with_unfolding_all decide,
    fillUSDAmounts_fields_amended.2 [swapUSDC2X] 1600 zeroOracle
      failingOracle (by with_unfolding_all decide)⟩⟩
